import Mathlib

/-!
Verification of the NuttyB-Raptors lobby-command generation core against its
specification.

The TypeScript sources are shallowly embedded:
* JavaScript strings are Lean `String`s (lists of characters); the regular
  expressions used by the source are embedded as equivalent deterministic
  character scanners.
* JavaScript numbers are embedded as exact rationals (`Q` below), which is
  exact where IEEE-754 double arithmetic rounds (`0.3 / 0.1`, `0.1 * 0.2`)
  and cannot represent `-0`.  No theorem below quantifies over evaluated
  numeric output: the universal statements about `evaluateExpression`
  concern only its branch guards — which are purely syntactic (split
  shapes and the `parseFloat` NaN test) — and the unchanged pass-through,
  while the concrete evaluations use inputs (`0.75 / 1.5`, `2 * 3`,
  `2 + 3 / 4`) whose results are exactly representable doubles, where the
  rational model provably coincides with the program.
* `console.warn` side effects are dropped: warnings never influence any
  return value in the source.
-/

/-! ## JavaScript character classes and string primitives -/

/-- The character class `\s` of JavaScript regular expressions (and the set
trimmed by `String.prototype.trim`), restricted to the code points that can
appear here. -/
def jsWhitespace (c : Char) : Bool :=
  c = ' ' || c = '\t' || c = '\n' || c = '\r' || c = '\x0b' || c = '\x0c' ||
    c = ' ' || c = '﻿'

/-- The character class `\d` (ASCII digits). -/
def isJsDigit (c : Char) : Bool :=
  '0' ≤ c && c ≤ '9'

/-- The character class `\w` (word characters) used by the placeholder
regular expression `\$(\w+)\$`. -/
def isWordChar (c : Char) : Bool :=
  isJsDigit c || ('a' ≤ c && c ≤ 'z') || ('A' ≤ c && c ≤ 'Z') || c = '_'

/-- One of the four arithmetic operator characters, the class `[+\-*/]`. -/
def isArithOp (c : Char) : Bool :=
  c = '+' || c = '-' || c = '*' || c = '/'

/-- A character allowed by the safety whitelist `[\d\s+\-*/().]` of
`evaluateExpression`. -/
def safeChar (c : Char) : Bool :=
  isJsDigit c || jsWhitespace c || isArithOp c || c = '(' || c = ')' || c = '.'

/-- `String.prototype.trim`: drop leading and trailing whitespace. -/
def jsTrim (s : String) : String :=
  ⟨((s.data.dropWhile jsWhitespace).reverse.dropWhile jsWhitespace).reverse⟩

/-- `String.prototype.split` with a single-character separator: splits at
every occurrence of the separator. -/
def splitOnChar (sep : Char) : List Char → List (List Char)
  | [] => [[]]
  | c :: rest =>
    if c = sep then
      [] :: splitOnChar sep rest
    else
      match splitOnChar sep rest with
      | [] => [[c]]
      | w :: ws => (c :: w) :: ws

/-! ## Exact rational numbers

JavaScript numbers are embedded as exact rationals kept in lowest terms.
(Mathlib's `ℚ` is not used because its arithmetic does not reduce inside the
kernel, which the concrete evaluations below require.) -/

/-- An exact rational: numerator and (positive, by construction) denominator,
kept in lowest terms by `reduceQ`. -/
structure Q where
  n : Int
  d : Nat
deriving DecidableEq, Repr

/-- Build a `Q` in lowest terms from a numerator and a positive denominator. -/
def reduceQ (n : Int) (d : Nat) : Q :=
  if d = 0 then ⟨0, 1⟩
  else
    let g := Nat.gcd n.natAbs d
    ⟨n / (g : Int), d / g⟩

/-- Multiplication of exact rationals.  The program multiplies doubles,
which rounds (`0.1 * 0.2` is `0.020000000000000004` there); claims use this
only at concrete inputs whose product is an exactly representable double. -/
def qMul (a b : Q) : Q :=
  reduceQ (a.n * b.n) (a.d * b.d)

/-- Division of exact rationals (`qDiv a b` is only meaningful for `b.n ≠ 0`;
callers check the denominator first, mirroring the JavaScript special cases
for division by zero).  The program divides doubles, which rounds
(`0.3 / 0.1` is `2.9999999999999996` there); claims use this only at
concrete inputs whose quotient is an exactly representable double. -/
def qDiv (a b : Q) : Q :=
  let n := a.n * (b.d : Int)
  let m := b.n * (a.d : Int)
  if m < 0 then reduceQ (-n) m.natAbs else reduceQ n m.natAbs

/-! ## JavaScript number parsing and printing -/

/-- Numeric value of a list of ASCII digits. -/
def digitsToNat (l : List Char) : Nat :=
  l.foldl (fun acc c => acc * 10 + (c.toNat - '0'.toNat)) 0

/-- `Number.parseFloat`: skip leading whitespace, an optional sign, then read
a decimal prefix `digits [ '.' digits ]`; `none` models `NaN` (no digit at
all).  Exponents and `Infinity` literals cannot occur here because every
caller has already passed the character whitelist, which excludes letters.
The value is the exact rational denoted by the digits, where the program
rounds to the nearest double and distinguishes `-0`; claims depend only on
the NaN-or-not outcome and on concrete exactly-representable values. -/
def jsParseFloat (s : String) : Option Q :=
  let l0 := s.data.dropWhile jsWhitespace
  let sgn : Int := match l0 with
    | '-' :: _ => -1
    | _ => 1
  let l1 := match l0 with
    | '-' :: r => r
    | '+' :: r => r
    | _ => l0
  let d1 := l1.takeWhile isJsDigit
  let l2 := l1.dropWhile isJsDigit
  let d2 := match l2 with
    | '.' :: r => r.takeWhile isJsDigit
    | _ => []
  if d1.isEmpty && d2.isEmpty then none
  else some (reduceQ (sgn * ((digitsToNat d1 * 10 ^ d2.length + digitsToNat d2) : Nat)) (10 ^ d2.length))

/-- Number of factors `p` in `m` (fuel-based so that it reduces in the
kernel; `m` itself is always enough fuel). -/
def factorCountAux (p : Nat) : Nat → Nat → Nat
  | 0, _ => 0
  | fuel + 1, m => if 2 ≤ p ∧ m % p = 0 ∧ m ≠ 0 then factorCountAux p fuel (m / p) + 1 else 0

/-- Number of factors `p` in `m`. -/
def factorCount (p m : Nat) : Nat :=
  factorCountAux p m m

/-- Remove trailing `'0'` characters of a digit list. -/
def trimTrailingZeros (l : List Char) : List Char :=
  (l.reverse.dropWhile (· = '0')).reverse

/-- The fractional digits of `fp / 10 ^ k`: left-pad the decimal digits of
`fp` to `k` places, then drop trailing zeros. -/
def fracDigits (k fp : Nat) : String :=
  let ds := (toString fp).data
  ⟨trimTrailingZeros (List.replicate (k - ds.length) '0' ++ ds)⟩

/-- `Number.prototype.toString` on an exact rational.  For rationals with a
terminating decimal expansion this is exactly the JavaScript output (shortest
decimal form, no trailing zeros, no `.0` on integers).  Non-terminating
quotients — which JavaScript would print as a 17-significant-digit double —
are rendered as `num/den`, a shape the program never prints; no claim
evaluates such a quotient. -/
def numToString (q : Q) : String :=
  if q.n = 0 then "0"
  else
    let m := q.n.natAbs
    let d := q.d
    let a2 := factorCount 2 d
    let a5 := factorCount 5 d
    let sgn : String := if q.n < 0 then "-" else ""
    if d ≠ 2 ^ a2 * 5 ^ a5 then sgn ++ toString m ++ "/" ++ toString d
    else
      let k := max a2 a5
      let mm := m * (10 ^ k / d)
      let ip := mm / 10 ^ k
      let fp := mm % 10 ^ k
      if fp = 0 then sgn ++ toString ip
      else sgn ++ toString ip ++ "." ++ fracDigits k fp

/-- The string returned for `parts[0] / parts[1]` followed by `.toString()`:
JavaScript division by zero yields `Infinity`, `-Infinity` or `NaN`; otherwise
the exact quotient is printed.  (`-0` denominators are not represented, so the
sign of an infinite quotient can differ from the program; no claim evaluates a
division by zero.) -/
def jsDivToString (a b : Q) : String :=
  if b.n = 0 then
    if a.n > 0 then "Infinity" else if a.n < 0 then "-Infinity" else "NaN"
  else numToString (qDiv a b)

/-! ## `evaluateExpression` (template-interpolation module)

Embedding of `evaluateExpression` from the template-interpolation source
file: whitelist check, then the division branch, then the multiplication
branch, else the expression is returned unchanged.  The `try/catch` wrapper
is dropped: no operation in the `try` block can throw. -/

/-- The whitelist test `/^[\d\s+\-*/().]+$/.test(expression)`: nonempty and
every character safe. -/
def whitelistOk (e : String) : Bool :=
  !e.data.isEmpty && e.data.all safeChar

/-- `trimmed.split(sep).map(p => Number.parseFloat(p.trim()))` followed by the
`parts.length === 2 && parts.every(p => !Number.isNaN(p))` check: the two
parsed operands, or `none`. -/
def binParts (sep : Char) (t : String) : Option (Q × Q) :=
  match (splitOnChar sep t.data).map (fun w => jsParseFloat (jsTrim ⟨w⟩)) with
  | [some a, some b] => some (a, b)
  | _ => none

/-- The division branch guard: `trimmed.includes('/')` followed by the
two-operand split-and-parse. -/
def divTry (trimmed : String) : Option (Q × Q) :=
  if trimmed.data.contains '/' then binParts '/' trimmed else none

/-- The multiplication branch guard: `trimmed.includes('*')` followed by the
two-operand split-and-parse. -/
def mulTry (trimmed : String) : Option (Q × Q) :=
  if trimmed.data.contains '*' then binParts '*' trimmed else none

/-- `evaluateExpression`: reject non-whitelisted input unchanged; else try the
division shape on the trimmed expression, then the multiplication shape, else
return the input unchanged. -/
def evaluateExpression (expression : String) : String :=
  if !whitelistOk expression then expression
  else
    let trimmed := jsTrim expression
    match divTry trimmed with
    | some ab => jsDivToString ab.1 ab.2
    | none =>
      match mulTry trimmed with
      | some ab => numToString (qMul ab.1 ab.2)
      | none => expression

example : evaluateExpression "0.75 / 1.5" = "0.5" := by decide
example : evaluateExpression "2 * 3" = "6" := by decide
example : evaluateExpression "2 + 3" = "2 + 3" := by decide
example : evaluateExpression "2 + 3 / 4" = "0.5" := by decide
example : evaluateExpression "malicious()" = "malicious()" := by decide
example : evaluateExpression "2 * 3 + 1" = "6" := by decide

/-! ## String-keyed maps (JavaScript object semantics)

`Record<string, string>` objects are embedded as association lists.
`setKey` is own-property definition — overwrite at the key's original
position or append — which is what object spread performs; `assignVar` is
JavaScript *assignment*, which additionally routes the key `__proto__` to
the inherited `Object.prototype.__proto__` accessor and records nothing for
it.  `getKey` is own-property lookup; the `in`-operator check used by the
template interpolator, which also sees the inherited members of
`Object.prototype`, is modelled by `jsIn`/`jsIndex` further down. -/

/-- Object property read: value at the key, if present. -/
def getKey {α : Type} : List (String × α) → String → Option α
  | [], _ => none
  | p :: rest, k => if p.1 = k then some p.2 else getKey rest k

/-- Own-property definition: overwrite in place or append. -/
def setKey {α : Type} : List (String × α) → String → α → List (String × α)
  | [], k, v => [(k, v)]
  | p :: rest, k, v => if p.1 = k then (k, v) :: rest else p :: setKey rest k v

/-- JavaScript assignment `obj[k] = v` on a plain object: ordinary keys are
defined as own properties, but the key `__proto__` hits the inherited
`Object.prototype.__proto__` accessor — assigning a string through it
changes nothing and creates no own property. -/
def assignVar (m : List (String × String)) (k : String) (v : String) :
    List (String × String) :=
  if k = "__proto__" then m else setKey m k v

/-! ## `parseReference` (template-interpolation module) -/

/-- The result of `parseReference`. -/
structure ParsedReference where
  filePath : String
  vars : List (String × String)
deriving DecidableEq, Repr

/-- The `key=value` pair loop of `parseReference`: for each comma-separated
pair, `pair.split('=')` with every segment trimmed, destructured into its
first two segments; pairs with an empty key or no second segment are skipped
(with a warning in the source); otherwise the pair is assigned
(`variables[key] = value`, so a `__proto__` key records nothing). -/
def parseVariables (s : String) : List (String × String) :=
  (splitOnChar ',' s.data).foldl
    (fun m w =>
      match (splitOnChar '=' w).map (fun seg => jsTrim ⟨seg⟩) with
      | k :: v :: _ => if k = "" then m else assignVar m k v
      | _ => m)
    []

/-- `parseReference`: requires the `~` sigil, then embeds the anchored
regular expression match `^~([^{]+)(?:\{([^}]+)\})?$`.  The match is
deterministic: group 1 is everything before the first `{` (nonempty), and if
a `{` is present the rest must be `{` + a nonempty brace-free-on-the-right
variable list + a final `}`. -/
def parseReference (ref : String) : Option ParsedReference :=
  match ref.data with
  | '~' :: r =>
    match r.dropWhile (· ≠ '\x7b') with
    | [] => if r.isEmpty then none else some ⟨⟨r⟩, []⟩
    | _ :: t =>
      let a := r.takeWhile (· ≠ '\x7b')
      let inner := t.takeWhile (· ≠ '\x7d')
      match t.dropWhile (· ≠ '\x7d') with
      | ['\x7d'] =>
        if a.isEmpty || inner.isEmpty then none
        else some ⟨⟨a⟩, parseVariables ⟨inner⟩⟩
      | _ => none
  | _ => none

example : parseReference "~lua/main-defs.lua" = some ⟨"lua/main-defs.lua", []⟩ := by decide
example : parseReference "~lua/t.lua\x7bHP=1.5\x7d" = some ⟨"lua/t.lua", [("HP", "1.5")]⟩ := by
  decide
example : parseReference "lua/t.lua" = none := by decide
example : parseReference "~" = none := by decide
example : parseReference "~f.lua\x7b\x7d" = none := by decide
example : parseReference "~f.lua\x7bA=1,A=2\x7d" = some ⟨"f.lua", [("A", "2")]⟩ := by decide
example : parseReference "~f.lua\x7bA=1=2\x7d" = some ⟨"f.lua", [("A", "1")]⟩ := by decide
example : parseReference "~f.lua\x7bA=1,=2,B\x7d" = some ⟨"f.lua", [("A", "1")]⟩ := by decide

/-! ## `interpolateTemplate` (template-interpolation module)

The two `replaceAll` passes are embedded as deterministic left-to-right
scanners equivalent to the JavaScript global-regex replacement. -/

/-- The own property names of `Object.prototype`: on a plain object,
`name in obj` is true for these even when `obj` has no own properties. -/
def objectProtoNames : List String :=
  ["constructor", "hasOwnProperty", "isPrototypeOf", "propertyIsEnumerable",
    "toLocaleString", "toString", "valueOf", "__proto__", "__defineGetter__",
    "__defineSetter__", "__lookupGetter__", "__lookupSetter__"]

/-- The string the `replaceAll` callback's return value is coerced to when an
inherited `Object.prototype` member is read:  `__proto__` reads the prototype
object itself (`"[object Object]"`); the others are functions, rendered in
the NativeFunction format every current engine emits.  (The rendering is
implementation-defined; no claim's truth depends on these strings — the C4
counterexample uses only that the result differs from the placeholder.) -/
def protoValue (name : String) : String :=
  if name = "__proto__" then "[object Object]"
  else if name = "constructor" then "function Object() \x7b [native code] \x7d"
  else "function " ++ name ++ "() \x7b [native code] \x7d"

/-- The `in` operator on a plain `Record<string, string>` object: an own key
or an inherited `Object.prototype` member. -/
def jsIn (vars : List (String × String)) (name : String) : Bool :=
  (getKey vars name).isSome || objectProtoNames.contains name

/-- The property read `variables[varName]` as a string: the own value when
present, else the stringified inherited member. -/
def jsIndex (vars : List (String × String)) (name : String) : String :=
  match getKey vars name with
  | some v => v
  | none => protoValue name

/-- First pass, `template.replaceAll(/\$(\w+)\$/g, ...)`, as a character
scanner.  State `none`: outside any candidate placeholder; state `some buf`:
a `$` has been consumed and `buf` holds the word characters read since.  On a
closing `$` after at least one word character, the source tests
`varName in variables` — true for own keys and for inherited
`Object.prototype` members — and substitutes `variables[varName]`; only
placeholders failing that test are kept verbatim.  Everything else is copied
unchanged. -/
def rpAux (vars : List (String × String)) : Option (List Char) → List Char → List Char
  | none, [] => []
  | none, c :: rest =>
    if c = '$' then rpAux vars (some []) rest else c :: rpAux vars none rest
  | some buf, [] => '$' :: buf
  | some buf, c :: rest =>
    if c = '$' then
      if buf.isEmpty then '$' :: rpAux vars (some []) rest
      else if jsIn vars ⟨buf⟩ then (jsIndex vars ⟨buf⟩).data ++ rpAux vars none rest
      else '$' :: (buf ++ '$' :: rpAux vars none rest)
    else if isWordChar c then rpAux vars (some (buf ++ [c])) rest
    else '$' :: (buf ++ c :: rpAux vars none rest)

/-- Second pass, `interpolated.replaceAll(/\(([^()]+)\)/g, ...)`, as a
character scanner.  State `some buf`: a `(` has been consumed and `buf` holds
the paren-free characters read since.  A completed group whose content holds
an arithmetic operator is replaced by `(` + `evaluateExpression content` +
`)`; other groups and all remaining text are copied unchanged. -/
def egAux : Option (List Char) → List Char → List Char
  | none, [] => []
  | none, '(' :: rest => egAux (some []) rest
  | none, c :: rest => c :: egAux none rest
  | some buf, [] => '(' :: buf
  | some buf, '(' :: rest => '(' :: (buf ++ egAux (some []) rest)
  | some buf, ')' :: rest =>
    if buf.isEmpty then '(' :: ')' :: egAux none rest
    else if buf.any isArithOp then
      '(' :: ((evaluateExpression ⟨buf⟩).data ++ ')' :: egAux none rest)
    else '(' :: (buf ++ ')' :: egAux none rest)
  | some buf, c :: rest => egAux (some (buf ++ [c])) rest

/-- `interpolateTemplate`: the placeholder pass followed by the
parenthesized-expression pass.  The `usedVariables` bookkeeping of the source
only feeds a warning and is dropped. -/
def interpolateTemplate (template : String) (vars : List (String × String)) : String :=
  ⟨egAux none (rpAux vars none template.data)⟩

example : interpolateTemplate "a=$X$" [("X", "5")] = "a=5" := by decide
example : interpolateTemplate "a=$Y$" [("X", "5")] = "a=$Y$" := by decide
example :
    interpolateTemplate "h = h * $HP$" [("HP", "1.5")] = "h = h * 1.5" := by decide
example :
    interpolateTemplate "m = f(h * (0.75 / $HP$))" [("HP", "1.5")] = "m = f(h * (0.5))" := by
  decide

/-! ## `processLuaReference` (template-interpolation module) -/

/-- The bundle: `Map<string, string>` from file path to Lua source text,
embedded as an association list with first-match lookup (a `Map` has unique
keys). -/
abbrev Bundle := List (String × String)

/-- `luaFileMap.get(filePath)`. -/
def bundleGet (b : Bundle) (k : String) : Option String :=
  getKey b k

/-- `processLuaReference`: parse the reference, look the path up in the
bundle, and interpolate when variables are present.  The source tests the
lookup result with `if (!template)`, so a missing path and a present path
mapped to the empty string both return `null`. -/
def processLuaReference (ref : String) (luaFileMap : Bundle) : Option String :=
  match parseReference ref with
  | none => none
  | some parsed =>
    match bundleGet luaFileMap parsed.filePath with
    | none => none
    | some template =>
      if template = "" then none
      else if parsed.vars.isEmpty then some template
      else some (interpolateTemplate template parsed.vars)

example : processLuaReference "~lua/a.lua" [("lua/a.lua", "x = 1")] = some "x = 1" := by decide
example : processLuaReference "~lua/a.lua" [("lua/a.lua", "")] = none := by decide
example : processLuaReference "~lua/a.lua" [] = none := by decide
example :
    processLuaReference "~lua/t.lua\x7bHP=2\x7d" [("lua/t.lua", "h * $HP$")] = some "h * 2" := by
  decide

/-! ## `validateStoredConfiguration` (configuration-storage module)

The configuration value read back from `localStorage` is an arbitrary
JavaScript value, embedded as `JsValue`.  `DEFAULT_CONFIGURATION` and the
current Git SHA live in modules outside this core and are passed as
parameters. -/

/-- A JavaScript runtime value (the shapes relevant to stored
configurations). -/
inductive JsValue where
  | undef : JsValue
  | jsNull : JsValue
  | bool (b : Bool) : JsValue
  | num (q : Q) : JsValue
  | str (s : String) : JsValue
  | obj (fields : List (String × JsValue)) : JsValue

/-- JavaScript truthiness. -/
def truthy : JsValue → Bool
  | .undef => false
  | .jsNull => false
  | .bool b => b
  | .num q => !(q.n = 0)
  | .str s => !(s = "")
  | .obj _ => true

/-- `typeof v === 'object'` (true for `null` and for objects). -/
def typeofObject : JsValue → Bool
  | .jsNull => true
  | .obj _ => true
  | _ => false

/-- The object spread `{...defaults, ...fields}`: assign every own property
of `fields`, in order, on top of `defaults`. -/
def spreadMerge (defaults fields : List (String × JsValue)) : List (String × JsValue) :=
  fields.foldl (fun acc p => setKey acc p.1 p.2) defaults

/-- The `StoredConfiguration` record persisted in `localStorage`. -/
structure StoredConfiguration where
  configuration : JsValue
  gitSha : String

/-- `validateStoredConfiguration`: return `null` unless `stored.configuration`
is truthy and of type `object`; otherwise merge it over the defaults and stamp
the current Git SHA.  (`defaults` embeds the external `DEFAULT_CONFIGURATION`,
`currentSha` the external `getCurrentGitSha()`.) -/
def validateStoredConfiguration (defaults : List (String × JsValue)) (currentSha : String)
    (stored : StoredConfiguration) : Option StoredConfiguration :=
  if !truthy stored.configuration || !typeofObject stored.configuration then none
  else
    match stored.configuration with
    | .obj fields => some ⟨.obj (spreadMerge defaults fields), currentSha⟩
    | _ => none

example :
    validateStoredConfiguration [("a", .num ⟨1, 1⟩)] "g" ⟨.obj [("b", .str "x")], "old"⟩ =
      some ⟨.obj [("a", .num ⟨1, 1⟩), ("b", .str "x")], "g"⟩ := rfl
example :
    validateStoredConfiguration [("a", .num ⟨1, 1⟩)] "g" ⟨.jsNull, "old"⟩ = none := rfl
example :
    validateStoredConfiguration [("a", .num ⟨1, 1⟩)] "g" ⟨.str "zzz", "old"⟩ = none := rfl

/-! ## The packing pipeline

`buildLobbySections`, the configuration mapper, the source annotator, the
packing engine and the `base64`/`lua-comments` helpers are exercised by the
repository's end-to-end test but their sources are not part of this corpus;
they are modelled from the specification below.  Fragments are handled as
lists of lines; the payload of a slot is its lines joined with `\n`. -/

/-- A fragment: the lines of one annotated source text. -/
abbrev Frag := List String

/-- Join character lists with a newline between them. -/
def lineJoinCh : List (List Char) → List Char
  | [] => []
  | [l] => l
  | l :: ls => l ++ '\n' :: lineJoinCh ls

/-- Modelled from the spec: `lines.join('\n')`. -/
def lineJoin (ls : List String) : String :=
  ⟨lineJoinCh (ls.map String.data)⟩

/-- Modelled from the spec: `payload.split('\n')`. -/
def lineSplit (s : String) : List String :=
  (splitOnChar '\n' s.data).map String.mk

/-- Modelled from the spec (source annotator, missing from the corpus):
prepend a Lua single-line comment `-- Source: <reference>` to the fragment's
lines. -/
def annotate (ref : String) (bodyLines : List String) : List String :=
  ("-- Source: " ++ ref) :: bodyLines

/-- Whether the first character list is a prefix of the second. -/
def isPrefixCh : List Char → List Char → Bool
  | [], _ => true
  | _ :: _, [] => false
  | a :: as, b :: bs => a = b && isPrefixCh as bs

/-- Modelled from the spec (`lua-comments` helper, missing from the corpus):
strip the Lua single-line comment marker. -/
def stripCommentMarker (s : String) : String :=
  if isPrefixCh "-- ".data s.data then ⟨s.data.drop 3⟩ else s

/-- Modelled from the spec: remove the literal `Source: ` traceability
marker. -/
def stripSourceMarker (s : String) : String :=
  if isPrefixCh "Source: ".data s.data then ⟨s.data.drop 8⟩ else s

/-- Modelled from the spec: recover a reference token from its annotation
line. -/
def recoverSource (s : String) : String :=
  stripSourceMarker (stripCommentMarker s)

example : recoverSource "-- Source: ~lua/a.lua" = "~lua/a.lua" := by decide

/-- Modelled from the spec: the command emitted for one slot,
`!bset <category><slot-index> <encoded-payload>`, the index omitted for a
single-slot category.  `enc` is the external reversible text encoding
(`base64`, missing from the corpus). -/
def slotCommand (enc : String → String) (cat : String) (idx : Option Nat)
    (frags : List Frag) : String :=
  "!bset " ++ cat ++ (match idx with | none => "" | some i => toString i) ++ " " ++
    enc (lineJoin frags.flatten)

/-- Modelled from the spec: one step of first-fit-by-arrival packing.  State:
the closed groups and the group under construction (the next slot index is
the number of closed groups); `none` is a capacity failure.  A fragment is
appended to the current group when the resulting command still fits,
otherwise it starts the next group — failing if it cannot even fit alone. -/
def packStep (fits : Nat → List Frag → Bool) (st : Option (List (List Frag) × List Frag))
    (f : Frag) : Option (List (List Frag) × List Frag) :=
  match st with
  | none => none
  | some (gs, cur) =>
    if fits gs.length (cur ++ [f]) then some (gs, cur ++ [f])
    else if fits (gs.length + 1) [f] then some (gs ++ [cur], [f]) else none

/-- Modelled from the spec: split the fragment list into contiguous groups,
first-fit-by-arrival, each group passing `fits` at its slot index. -/
def packGroups (fits : Nat → List Frag → Bool) (frags : List Frag) :
    Option (List (List Frag)) :=
  match frags with
  | [] => none
  | f :: rest =>
    if fits 0 [f] then
      (rest.foldl (packStep fits) (some ([], [f]))).map (fun st => st.1 ++ [st.2])
    else none

/-- Modelled from the spec: whether one slot command of the category fits the
command-length limit. -/
def slotFits (enc : String → String) (maxLen : Nat) (cat : String) (i : Nat)
    (g : List Frag) : Bool :=
  decide ((slotCommand enc cat (some i) g).length ≤ maxLen)

/-- Modelled from the spec: the slot groups the packing engine produces — one
unnumbered slot when the whole payload fits, otherwise first-fit groups
numbered from 0, failing when a fragment cannot fit alone or more than
`maxSlots` groups are needed. -/
def packedGroups (enc : String → String) (maxLen maxSlots : Nat) (cat : String)
    (frags : List Frag) : Option (List (List Frag)) :=
  if (slotCommand enc cat none frags).length ≤ maxLen then some [frags]
  else
    (packGroups (slotFits enc maxLen cat) frags).bind
      (fun gs => if gs.length ≤ maxSlots then some gs else none)

/-- Modelled from the spec: render numbered slot commands. -/
def renderSlots (enc : String → String) (cat : String) : Nat → List (List Frag) → List String
  | _, [] => []
  | i, g :: gs => slotCommand enc cat (some i) g :: renderSlots enc cat (i + 1) gs

/-- Modelled from the spec: the packing engine's emitted commands for one
category. -/
def pack (enc : String → String) (maxLen maxSlots : Nat) (cat : String)
    (frags : List Frag) : Option (List String) :=
  if (slotCommand enc cat none frags).length ≤ maxLen then
    some [slotCommand enc cat none frags]
  else
    (packGroups (slotFits enc maxLen cat) frags).bind
      (fun gs => if gs.length ≤ maxSlots then some (renderSlots enc cat 0 gs) else none)

/-- Modelled from the spec: a `TweakValue` of the static configuration
mapping — optional literal commands and per-destination reference lists. -/
structure TweakValue where
  command : List String
  tweakdefs : List String
  tweakunits : List String
deriving DecidableEq, Repr

/-- Modelled from the spec: the static configuration mapping, per setting key
a table from stringified setting value to `TweakValue`. -/
abbrev MappingTable := List (String × List (String × TweakValue))

/-- Modelled from the spec: a validated configuration, the settings in schema
key order with stringified values. -/
abbrev ConfigRecord := List (String × String)

/-- Modelled from the spec (configuration mapper): baseline commands and
reference lists first, then for each configuration key in schema order the
matching `TweakValue` contributions, skipping keys whose value has no entry. -/
def mapToTweaks (baseCommands baseDefs baseUnits : List String) (mapping : MappingTable)
    (config : ConfigRecord) : List String × List String × List String :=
  config.foldl
    (fun acc kv =>
      match getKey mapping kv.1 with
      | none => acc
      | some tbl =>
        match getKey tbl kv.2 with
        | none => acc
        | some tv => (acc.1 ++ tv.command, acc.2.1 ++ tv.tweakdefs, acc.2.2 ++ tv.tweakunits))
    (baseCommands, baseDefs, baseUnits)

/-- Modelled from the spec: resolve each reference against the bundle with
`processLuaReference`, skipping failed ones, and annotate each resolved text
with its originating reference. -/
def resolveFragments (bundle : Bundle) (refs : List String) : List Frag :=
  refs.filterMap (fun r => (processLuaReference r bundle).map (fun t => annotate r (lineSplit t)))

/-- Modelled from the spec (section builder): greedily group consecutive
commands into newline-joined sections of total length at most `maxLen`; a
single command longer than `maxLen` is passed through as its own section. -/
def sectionizeAux (maxLen : Nat) (cur : String) : List String → List String
  | [] => [cur]
  | c :: rest =>
    if (cur ++ "\n" ++ c).length ≤ maxLen then sectionizeAux maxLen (cur ++ "\n" ++ c) rest
    else cur :: sectionizeAux maxLen c rest

/-- Modelled from the spec: group a command list into sections. -/
def sectionize (maxLen : Nat) : List String → List String
  | [] => []
  | c :: rest => sectionizeAux maxLen c rest

/-- The result of `buildLobbySections`. -/
structure LobbySections where
  sections : List String
deriving DecidableEq, Repr

/-- Modelled from the spec: `buildLobbySections` — map the configuration to
literal commands and reference lists, resolve and annotate the references,
pack both categories, and group the flat command list (literal commands,
then tweakdefs slots, then tweakunits slots) into sections. -/
def buildLobbySections (enc : String → String) (maxLen maxSlots : Nat)
    (baseCommands baseDefs baseUnits : List String) (mapping : MappingTable)
    (config : ConfigRecord) (bundle : Bundle) : Option LobbySections :=
  (pack enc maxLen maxSlots "tweakdefs"
      (resolveFragments bundle (mapToTweaks baseCommands baseDefs baseUnits mapping config).2.1)).bind
    (fun dc =>
      (pack enc maxLen maxSlots "tweakunits"
          (resolveFragments bundle
            (mapToTweaks baseCommands baseDefs baseUnits mapping config).2.2)).map
        (fun uc =>
          ⟨sectionize maxLen
            ((mapToTweaks baseCommands baseDefs baseUnits mapping config).1 ++ dc ++ uc)⟩))

example :
    buildLobbySections (fun s => s) 60 2 ["!hello"] [] [] [] [] [] =
      some ⟨["!hello\n!bset tweakdefs \n!bset tweakunits "]⟩ := by decide

/-! ## Spec-side shape descriptions used by the claims -/

/-- The division shape of the (amended) claim C1: the trimmed expression
contains `/`, splitting on `/` yields exactly two operands, and both have a
numeric prefix accepted by `Number.parseFloat`. -/
def divShapeP (t : String) (a b : Q) : Prop :=
  t.data.contains '/' = true ∧
    ∃ x y, splitOnChar '/' t.data = [x, y] ∧
      jsParseFloat (jsTrim ⟨x⟩) = some a ∧ jsParseFloat (jsTrim ⟨y⟩) = some b

/-- The multiplication shape of the (amended) claim C1. -/
def mulShapeP (t : String) (a b : Q) : Prop :=
  t.data.contains '*' = true ∧
    ∃ x y, splitOnChar '*' t.data = [x, y] ∧
      jsParseFloat (jsTrim ⟨x⟩) = some a ∧ jsParseFloat (jsTrim ⟨y⟩) = some b

/-- The per-pair semantics of the (amended) claim C3: key is the trimmed text
before the first `=`, value the trimmed text between the first and second `=`;
a pair with no `=` or with an empty key contributes nothing. -/
def pairKV (w : List Char) : Option (String × String) :=
  match w.dropWhile (· ≠ '=') with
  | [] => none
  | _ :: rest =>
    let k := jsTrim ⟨w.takeWhile (· ≠ '=')⟩
    let v := jsTrim ⟨rest.takeWhile (· ≠ '=')⟩
    if k = "" then none else some (k, v)

/-- Every group fits at its slot index, counting from `i` (used to state the
packing invariant). -/
def fitsAll (fits : Nat → List Frag → Bool) : Nat → List (List Frag) → Prop
  | _, [] => True
  | i, g :: gs => fits i g = true ∧ fitsAll fits (i + 1) gs

/-! ## Helper lemmas -/

theorem binParts_eq_some (sep : Char) (t : String) (a b : Q) :
    binParts sep t = some (a, b) ↔
      ∃ x y, splitOnChar sep t.data = [x, y] ∧
        jsParseFloat (jsTrim ⟨x⟩) = some a ∧ jsParseFloat (jsTrim ⟨y⟩) = some b := by
  unfold binParts
  rcases hs : splitOnChar sep t.data with _ | ⟨x, _ | ⟨y, _ | ⟨z, zs⟩⟩⟩
  · simp
  · cases hfx : jsParseFloat (jsTrim ⟨x⟩) <;> simp [hfx]
  · cases hfx : jsParseFloat (jsTrim ⟨x⟩) <;> cases hfy : jsParseFloat (jsTrim ⟨y⟩) <;>
      simp only [List.map_cons, List.map_nil, hfx, hfy] <;> aesop
  · cases hfx : jsParseFloat (jsTrim ⟨x⟩) <;> cases hfy : jsParseFloat (jsTrim ⟨y⟩) <;>
      simp [hfx, hfy]

theorem whitelistOk_eq_false_of_bad (e : String) (c : Char) (hc : c ∈ e.data)
    (hbad : safeChar c = false) : whitelistOk e = false := by
  unfold whitelistOk
  have : e.data.all safeChar = false := by
    rw [List.all_eq_false]
    exact ⟨c, hc, by simp [hbad]⟩
  simp [this]

/-! ## Claims about `evaluateExpression` -/

/-- C5: every expression containing a character outside the whitelist
`[\d\s+\-*/().]` is returned unchanged; in particular
`evaluate("malicious()")` returns `"malicious()"`. -/
theorem verification_c5 :
    (∀ e : String, (∃ c ∈ e.data, safeChar c = false) → evaluateExpression e = e) ∧
      evaluateExpression "malicious()" = "malicious()" := by
  constructor
  · intro e ⟨c, hc, hbad⟩
    have hw := whitelistOk_eq_false_of_bad e c hc hbad
    simp [evaluateExpression, hw]
  · decide

/-- C5 witness: the general statement applied at `"malicious()"`. -/
theorem verification_c5_witness : evaluateExpression "malicious()" = "malicious()" :=
  verification_c5.1 "malicious()" ⟨'m', by decide, by decide⟩

/-- C8: `evaluate("0.75 / 1.5")` returns `"0.5"` and `evaluate("2 * 3")`
returns `"6"`, via the division and multiplication branches. -/
theorem verification_c8 :
    evaluateExpression "0.75 / 1.5" = "0.5" ∧ evaluateExpression "2 * 3" = "6" :=
  ⟨by decide, by decide⟩

/-- C1 counterexample: `"2 + 3 / 4"` passes the whitelist and contains an
addition and more than two operands, yet the evaluator does not return it
unchanged — `Number.parseFloat` accepts the numeric prefix of `"2 + 3"`, so
the division branch fires and returns `"0.5"`. -/
theorem verification_c1_cex :
    whitelistOk "2 + 3 / 4" = true ∧
      evaluateExpression "2 + 3 / 4" = "0.5" ∧ evaluateExpression "2 + 3 / 4" ≠ "2 + 3 / 4" := by
  refine ⟨by decide, by decide, by decide⟩

/-- C1 (amended): the evaluator decides its branch purely syntactically,
division first — an expression evaluates when it contains the operator and
splits on it into exactly two operands whose trimmed text has a numeric
prefix accepted by `Number.parseFloat` (so operands may carry trailing
non-numeric text and expressions containing additions can still be
evaluated, by IEEE-754 double arithmetic on the parsed prefixes); every
whitelisted expression matching neither shape is returned unchanged.  The
theorem formalizes the unchanged pass-through, whose guards are syntactic
and independent of floating-point rounding; the arithmetic itself is double
arithmetic and outside this embedding (C8 proves concrete instances where
the exact model coincides with it). -/
theorem verification_c1 : ∀ e : String, whitelistOk e = true →
    (∀ a b, ¬ divShapeP (jsTrim e) a b) → (∀ a b, ¬ mulShapeP (jsTrim e) a b) →
    evaluateExpression e = e := by
  intro e hwl hnod hnom
  have hdivn : divTry (jsTrim e) = none := by
    unfold divTry
    by_cases hc : (jsTrim e).data.contains '/' = true
    · rw [if_pos hc]
      cases hbp : binParts '/' (jsTrim e) with
      | none => rfl
      | some ab =>
        exact absurd ⟨hc, (binParts_eq_some '/' (jsTrim e) ab.1 ab.2).mp
          (by rw [hbp])⟩ (hnod ab.1 ab.2)
    · rw [if_neg hc]
  have hmuln : mulTry (jsTrim e) = none := by
    unfold mulTry
    by_cases hc : (jsTrim e).data.contains '*' = true
    · rw [if_pos hc]
      cases hbp : binParts '*' (jsTrim e) with
      | none => rfl
      | some ab =>
        exact absurd ⟨hc, (binParts_eq_some '*' (jsTrim e) ab.1 ab.2).mp
          (by rw [hbp])⟩ (hnom ab.1 ab.2)
    · rw [if_neg hc]
  simp only [evaluateExpression, hwl, Bool.not_true, Bool.false_eq_true, if_false, hdivn, hmuln]

/-- C1 witness: the pass-through applied at `"2 + 3"`, which is whitelisted
but matches neither shape. -/
theorem verification_c1_witness : evaluateExpression "2 + 3" = "2 + 3" :=
  verification_c1 "2 + 3" (by decide) (fun a b h => absurd h.1 (by decide))
    (fun a b h => absurd h.1 (by decide))

/-! ## Claims about `parseReference` and `processLuaReference` -/

theorem splitOnChar_eq (sep : Char) (l : List Char) :
    splitOnChar sep l = l.takeWhile (· ≠ sep) ::
      (match l.dropWhile (· ≠ sep) with
       | [] => []
       | _ :: r => splitOnChar sep r) := by
  induction l with
  | nil => rfl
  | cons c rest ih =>
    by_cases hc : c = sep
    · subst hc
      have h1 : splitOnChar c (c :: rest) = [] :: splitOnChar c rest := by
        simp [splitOnChar]
      have ht : List.takeWhile (fun x => decide (x ≠ c)) (c :: rest) = [] := by
        simp [List.takeWhile_cons]
      have hdw : List.dropWhile (fun x => decide (x ≠ c)) (c :: rest) = c :: rest := by
        simp [List.dropWhile_cons]
      rw [h1, ht, hdw]
    · have h1 : splitOnChar sep (c :: rest) =
          match splitOnChar sep rest with
          | [] => [[c]]
          | w :: ws => (c :: w) :: ws := by
        simp [splitOnChar, hc]
      have ht : List.takeWhile (fun x => decide (x ≠ sep)) (c :: rest) =
          c :: List.takeWhile (fun x => decide (x ≠ sep)) rest := by
        simp [List.takeWhile_cons, hc]
      have hdw : List.dropWhile (fun x => decide (x ≠ sep)) (c :: rest) =
          List.dropWhile (fun x => decide (x ≠ sep)) rest := by
        simp [List.dropWhile_cons, hc]
      rw [h1, ih, ht, hdw]

theorem splitOnChar_of_dropWhile_nil (sep : Char) (l : List Char)
    (h : l.dropWhile (· ≠ sep) = []) :
    splitOnChar sep l = [l.takeWhile (· ≠ sep)] := by
  rw [splitOnChar_eq sep l, h]

theorem splitOnChar_of_dropWhile_cons (sep c : Char) (l r : List Char)
    (h : l.dropWhile (· ≠ sep) = c :: r) :
    splitOnChar sep l = l.takeWhile (· ≠ sep) :: splitOnChar sep r := by
  rw [splitOnChar_eq sep l, h]

theorem foldl_congr_fun {α β : Type} (f g : α → β → α) (h : ∀ m x, f m x = g m x) :
    ∀ (l : List β) (a : α), l.foldl f a = l.foldl g a := by
  intro l
  induction l with
  | nil => intro a; rfl
  | cons x xs ih => intro a; simp only [List.foldl_cons, h, ih]

theorem getKey_setKey_self {α : Type} (m : List (String × α)) (k : String) (v : α) :
    getKey (setKey m k v) k = some v := by
  induction m with
  | nil => simp [setKey, getKey]
  | cons p rest ih =>
    by_cases hp : p.1 = k
    · simp [setKey, hp, getKey]
    · simp [setKey, hp, getKey, ih]

/-- C3 counterexample: in `~f.lua{A=1=2}` the pair `A=1=2` records the value
`"1"` (the segment between the first and the second `=`), not everything
after the first `=` (`"1=2"`); and the well-formed pair `__proto__=5`
records nothing at all, because JavaScript assignment of the key
`__proto__` goes through the inherited accessor. -/
theorem verification_c3_cex :
    parseReference "~f.lua\x7bA=1=2\x7d" = some ⟨"f.lua", [("A", "1")]⟩ ∧
      ("1" : String) ≠ "1=2" ∧
      parseReference "~f.lua\x7b__proto__=5\x7d" = some ⟨"f.lua", []⟩ :=
  ⟨by decide, by decide, by decide⟩

/-- C3 (amended): each comma-separated pair is split on `=` and only the
first two trimmed segments are kept — the key is the text before the first
`=`, the value the text between the first and second `=` (text after a second
`=` is dropped); pairs with an empty key or no `=` are skipped without
failing the token; the surviving pairs are recorded by JavaScript
assignment, which records nothing for the key `__proto__`; and for every
other key a later occurrence of a duplicate overwrites the recorded
value. -/
theorem verification_c3 :
    (∀ s : String, parseVariables s =
      (splitOnChar ',' s.data).foldl
        (fun m w =>
          match pairKV w with
          | none => m
          | some kv => assignVar m kv.1 kv.2) []) ∧
    (∀ (m : List (String × String)) (k : String) (v : String), k ≠ "__proto__" →
      getKey (assignVar m k v) k = some v) := by
  constructor
  · intro s
    unfold parseVariables
    apply foldl_congr_fun
    intro m w
    cases hd : w.dropWhile (· ≠ '=') with
    | nil =>
      rw [splitOnChar_of_dropWhile_nil '=' w hd]
      unfold pairKV
      rw [hd]
      rfl
    | cons c r =>
      rw [splitOnChar_of_dropWhile_cons '=' c w r hd, splitOnChar_eq '=' r]
      unfold pairKV
      rw [hd]
      simp only [List.map_cons]
      split <;> rfl
  · intro m k v hk
    unfold assignVar
    rw [if_neg hk]
    exact getKey_setKey_self m k v

/-- C3 witness: the amended pair semantics applied at `"A=1=2,B=3"`, plus
last-duplicate-wins at a concrete map. -/
theorem verification_c3_witness :
    parseVariables "A=1=2,B=3" =
      (splitOnChar ',' ("A=1=2,B=3" : String).data).foldl
        (fun m w =>
          match pairKV w with
          | none => m
          | some kv => assignVar m kv.1 kv.2) [] ∧
      getKey (assignVar [("A", "1")] "A" "2") "A" = some "2" :=
  ⟨verification_c3.1 "A=1=2,B=3", verification_c3.2 [("A", "1")] "A" "2" (by decide)⟩

/-- C10: a bundle entry that is present but maps to the empty string is
treated like an absent entry — `processLuaReference` returns `null` because
the lookup result is tested for truthiness. -/
theorem verification_c10 :
    bundleGet [("lua/m.lua", "")] "lua/m.lua" = some "" ∧
      processLuaReference "~lua/m.lua" [("lua/m.lua", "")] = none :=
  ⟨by decide, by decide⟩

/-- C2 counterexample: with the bundle mapping `b.lua` to the empty string,
parsing succeeds and the path is present, yet the resolver returns `null`
instead of the (empty) bundle text. -/
theorem verification_c2_cex :
    parseReference "~b.lua" = some ⟨"b.lua", []⟩ ∧
      bundleGet [("b.lua", "")] "b.lua" = some "" ∧
      processLuaReference "~b.lua" [("b.lua", "")] = none :=
  ⟨by decide, by decide, by decide⟩

/-- C2 (amended): the resolver returns `null` exactly when the token fails to
parse or the bundle holds no text or only empty text for the parsed path; and
whenever parsing succeeds, the bundle text is nonempty and the variable map
is empty, it returns the bundle text unchanged. -/
theorem verification_c2 : ∀ (r : String) (bundle : Bundle),
    (processLuaReference r bundle = none ↔
      parseReference r = none ∨
        ∃ p, parseReference r = some p ∧
          (bundleGet bundle p.filePath = none ∨ bundleGet bundle p.filePath = some "")) ∧
    (∀ p t, parseReference r = some p → bundleGet bundle p.filePath = some t → t ≠ "" →
      p.vars = [] → processLuaReference r bundle = some t) := by
  intro r bundle
  constructor
  · cases hp : parseReference r with
    | none => simp [processLuaReference, hp]
    | some p =>
      cases hb : bundleGet bundle p.filePath with
      | none => simp [processLuaReference, hp, hb]
      | some t =>
        by_cases ht : t = ""
        · subst ht
          simp [processLuaReference, hp, hb]
        · by_cases hv : p.vars.isEmpty <;> simp [processLuaReference, hp, hb, ht, hv]
  · intro p t hp hb ht hv
    simp [processLuaReference, hp, hb, ht, hv]

/-- C2 witness: the positive case applied at a concrete reference and
bundle. -/
theorem verification_c2_witness :
    processLuaReference "~a.lua" [("a.lua", "x = 1")] = some "x = 1" :=
  (verification_c2 "~a.lua" [("a.lua", "x = 1")]).2 ⟨"a.lua", []⟩ "x = 1"
    (by decide) (by decide) (by decide) rfl

/-! ## Claims about `interpolateTemplate` -/

theorem takeWhile_append_word (l r : List Char) (h : l.all isWordChar = true) :
    (l ++ '$' :: r).takeWhile isWordChar = l := by
  induction l with
  | nil =>
    simp [List.takeWhile_cons]
    decide
  | cons a as ih =>
    simp only [List.all_cons, Bool.and_eq_true] at h
    simp [List.takeWhile_cons, h.1, ih h.2]

theorem dropWhile_append_word (l r : List Char) (h : l.all isWordChar = true) :
    (l ++ '$' :: r).dropWhile isWordChar = '$' :: r := by
  induction l with
  | nil =>
    simp [List.dropWhile_cons]
    intro hbad
    exact absurd hbad (by decide)
  | cons a as ih =>
    simp only [List.all_cons, Bool.and_eq_true] at h
    simp [List.dropWhile_cons, h.1, ih h.2]

/-- Behaviour of the placeholder scanner in the open-placeholder state: the
pending name is `buf` plus the longest word-character run of the input. -/
theorem rpAux_some (vars : List (String × String)) : ∀ (l buf : List Char),
    rpAux vars (some buf) l =
      match l.dropWhile isWordChar with
      | [] => '$' :: (buf ++ l.takeWhile isWordChar)
      | c :: after =>
        if c = '$' then
          if (buf ++ l.takeWhile isWordChar).isEmpty then '$' :: rpAux vars (some []) after
          else if jsIn vars ⟨buf ++ l.takeWhile isWordChar⟩ then
            (jsIndex vars ⟨buf ++ l.takeWhile isWordChar⟩).data ++ rpAux vars none after
          else '$' :: ((buf ++ l.takeWhile isWordChar) ++ '$' :: rpAux vars none after)
        else '$' :: ((buf ++ l.takeWhile isWordChar) ++ c :: rpAux vars none after) := by
  intro l
  induction l with
  | nil =>
    intro buf
    simp [rpAux]
  | cons c rest ih =>
    intro buf
    by_cases hdol : c = '$'
    · subst hdol
      have hw : isWordChar '$' = false := by decide
      simp [rpAux, List.dropWhile_cons, List.takeWhile_cons, hw]
    · by_cases hw : isWordChar c = true
      · have hL : rpAux vars (some buf) (c :: rest) = rpAux vars (some (buf ++ [c])) rest := by
          rw [rpAux]
          rw [if_neg hdol, if_pos hw]
        rw [hL, ih (buf ++ [c])]
        have ht : (c :: rest).takeWhile isWordChar = c :: rest.takeWhile isWordChar := by
          simp [List.takeWhile_cons, hw]
        have hd : (c :: rest).dropWhile isWordChar = rest.dropWhile isWordChar := by
          simp [List.dropWhile_cons, hw]
        rw [ht, hd]
        cases hdw : rest.dropWhile isWordChar with
        | nil => simp
        | cons d after =>
          by_cases hd2 : d = '$'
          · subst hd2
            simp [List.append_assoc]
          · simp [hd2, List.append_assoc]
      · have hwf : isWordChar c = false := by simp [hw]
        have hL : rpAux vars (some buf) (c :: rest) = '$' :: (buf ++ c :: rpAux vars none rest) := by
          rw [rpAux]
          rw [if_neg hdol]
          rw [if_neg hw]
        have ht : (c :: rest).takeWhile isWordChar = [] := by
          simp [List.takeWhile_cons, hwf]
        have hd : (c :: rest).dropWhile isWordChar = c :: rest := by
          simp [List.dropWhile_cons, hwf]
        rw [hL, hd]
        simp [ht, hdol]

theorem rpAux_none_dollar (vars : List (String × String)) (l : List Char) :
    rpAux vars none ('$' :: l) = rpAux vars (some []) l := by
  rw [rpAux]
  rw [if_pos rfl]

theorem rpAux_none_cons (vars : List (String × String)) (c : Char) (l : List Char)
    (hc : c ≠ '$') : rpAux vars none (c :: l) = c :: rpAux vars none l := by
  rw [rpAux]
  rw [if_neg hc]

/-- C4 counterexample: `toString` is not a key of the variable map, yet the
placeholder `$toString$` is not left unchanged — `'toString' in variables`
is true through the prototype chain, so the inherited member is
substituted. -/
theorem verification_c4_cex :
    getKey [("X", "5")] "toString" = none ∧
      interpolateTemplate "a=$toString$" [("X", "5")] ≠ "a=$toString$" :=
  ⟨by decide, by decide⟩

/-- C4 (amended): the first interpolation pass replaces each `$NAME$`
placeholder whose name is an own key of the variable map by that key's
value; a name that is not an own key but is an inherited `Object.prototype`
member name (`toString`, `valueOf`, `constructor`, ...) is also substituted,
by the stringified inherited member, because the source's `in` test
traverses the prototype chain; only placeholders whose name passes neither
test are left textually unchanged (never failing).  In particular
`interpolate("a=$X$", {X:"5"}) = "a=5"` and
`interpolate("a=$Y$", {X:"5"}) = "a=$Y$"`. -/
theorem verification_c4 :
    (∀ (vars : List (String × String)) (pre name post : List Char),
      '$' ∉ pre → name ≠ [] → name.all isWordChar = true →
      rpAux vars none (pre ++ '$' :: (name ++ '$' :: post)) =
        pre ++ ((if jsIn vars ⟨name⟩ then (jsIndex vars ⟨name⟩).data
                 else '$' :: (name ++ ['$'])) ++ rpAux vars none post)) ∧
    interpolateTemplate "a=$X$" [("X", "5")] = "a=5" ∧
    interpolateTemplate "a=$Y$" [("X", "5")] = "a=$Y$" := by
  refine ⟨?_, by decide, by decide⟩
  intro vars pre name post hpre hne hword
  induction pre with
  | nil =>
    rw [List.nil_append, rpAux_none_dollar, rpAux_some vars (name ++ '$' :: post) []]
    rw [dropWhile_append_word name post hword, takeWhile_append_word name post hword]
    by_cases hin : jsIn vars ⟨name⟩ = true
    · simp [hin, hne]
    · simp [hin, hne, List.append_assoc]
  | cons c pre' ih =>
    have hc : c ≠ '$' := fun h => hpre (h ▸ List.mem_cons_self c pre')
    have hpre' : '$' ∉ pre' := fun h => hpre (List.mem_cons_of_mem c h)
    rw [List.cons_append, rpAux_none_cons vars c _ hc, ih hpre']
    simp [List.cons_append]

/-- C4 witness: the general placeholder statement applied at the template
`a=$X$` with variable map `{X: "5"}`. -/
theorem verification_c4_witness :
    rpAux [("X", "5")] none ("a=".data ++ '$' :: ("X".data ++ '$' :: [])) =
      "a=".data ++ ((if jsIn [("X", "5")] (⟨"X".data⟩ : String) then
                      (jsIndex [("X", "5")] (⟨"X".data⟩ : String)).data
                     else '$' :: ("X".data ++ ['$'])) ++ rpAux [("X", "5")] none []) :=
  verification_c4.1 [("X", "5")] "a=".data "X".data [] (by decide) (by decide) (by decide)

/-! ## Claims about `validateStoredConfiguration` -/

theorem getKey_setKey_ne {α : Type} (m : List (String × α)) (k k' : String) (v : α)
    (h : k' ≠ k) : getKey (setKey m k v) k' = getKey m k' := by
  induction m with
  | nil => simp [setKey, getKey, Ne.symm h]
  | cons p rest ih =>
    by_cases hp : p.1 = k
    · simp [setKey, hp, getKey, Ne.symm h]
    · simp [setKey, hp, getKey, ih]

theorem getKey_none_of_not_mem {α : Type} (m : List (String × α)) (k : String)
    (h : k ∉ m.map Prod.fst) : getKey m k = none := by
  induction m with
  | nil => rfl
  | cons p rest ih =>
    simp only [List.map_cons, List.mem_cons, not_or] at h
    simp [getKey, Ne.symm h.1, ih h.2]

theorem getKey_spreadMerge (fields : List (String × JsValue)) :
    ∀ (defaults : List (String × JsValue)) (k : String), (fields.map Prod.fst).Nodup →
      getKey (spreadMerge defaults fields) k =
        match getKey fields k with
        | some v => some v
        | none => getKey defaults k := by
  induction fields with
  | nil =>
    intro defaults k _
    simp [spreadMerge, getKey]
  | cons p rest ih =>
    intro defaults k hnd
    simp only [List.map_cons, List.nodup_cons] at hnd
    have hstep : spreadMerge defaults (p :: rest) = spreadMerge (setKey defaults p.1 p.2) rest :=
      rfl
    rw [hstep, ih (setKey defaults p.1 p.2) k hnd.2]
    by_cases hk : p.1 = k
    · subst hk
      rw [getKey_none_of_not_mem rest p.1 hnd.1, getKey_setKey_self]
      simp [getKey]
    · rw [getKey_setKey_ne defaults p.1 k p.2 (Ne.symm hk)]
      simp [getKey, hk]

/-- C9: `validateStoredConfiguration` returns `null` exactly when the stored
configuration field is not a (non-null) object; when it is an object, the
result merges it over the defaults: stored keys keep their stored values,
missing keys are filled from the defaults, and every key of the default
schema is present in the result. -/
theorem verification_c9 : ∀ (defaults : List (String × JsValue)) (sha : String)
    (stored : StoredConfiguration),
    (validateStoredConfiguration defaults sha stored = none ↔
      ∀ fields, stored.configuration ≠ JsValue.obj fields) ∧
    (∀ fields, stored.configuration = JsValue.obj fields → (fields.map Prod.fst).Nodup →
      validateStoredConfiguration defaults sha stored =
          some ⟨JsValue.obj (spreadMerge defaults fields), sha⟩ ∧
        (∀ k v, getKey fields k = some v → getKey (spreadMerge defaults fields) k = some v) ∧
        (∀ k, getKey fields k = none →
          getKey (spreadMerge defaults fields) k = getKey defaults k) ∧
        (∀ k, (getKey defaults k).isSome → (getKey (spreadMerge defaults fields) k).isSome)) := by
  intro defaults sha stored
  obtain ⟨cfg, gsha⟩ := stored
  constructor
  · cases cfg with
    | obj fields =>
      constructor
      · intro h
        simp [validateStoredConfiguration, truthy, typeofObject] at h
      · intro h
        exact absurd rfl (h fields)
    | undef => simp [validateStoredConfiguration, truthy, typeofObject]
    | jsNull => simp [validateStoredConfiguration, truthy, typeofObject]
    | bool b => simp [validateStoredConfiguration, truthy, typeofObject]
    | num q => simp [validateStoredConfiguration, truthy, typeofObject]
    | str s => simp [validateStoredConfiguration, truthy, typeofObject]
  · intro fields hcfg hnd
    simp only at hcfg
    subst hcfg
    refine ⟨by simp [validateStoredConfiguration, truthy, typeofObject], ?_, ?_, ?_⟩
    · intro k v hkv
      rw [getKey_spreadMerge fields defaults k hnd, hkv]
    · intro k hk
      rw [getKey_spreadMerge fields defaults k hnd, hk]
    · intro k hk
      rw [getKey_spreadMerge fields defaults k hnd]
      cases hf : getKey fields k with
      | none => simpa using hk
      | some v => simp

/-- C9 witness: merging a stored configuration `{b: "x"}` over defaults
`{a: 1, b: 2}` keeps the stored `b` and fills `a` from the defaults. -/
theorem verification_c9_witness :
    getKey (spreadMerge [("a", JsValue.num ⟨1, 1⟩), ("b", JsValue.num ⟨2, 1⟩)]
        [("b", JsValue.str "x")]) "b" = some (JsValue.str "x") ∧
      getKey (spreadMerge [("a", JsValue.num ⟨1, 1⟩), ("b", JsValue.num ⟨2, 1⟩)]
        [("b", JsValue.str "x")]) "a" = some (JsValue.num ⟨1, 1⟩) := by
  have h := (verification_c9 [("a", JsValue.num ⟨1, 1⟩), ("b", JsValue.num ⟨2, 1⟩)] "g"
      ⟨JsValue.obj [("b", JsValue.str "x")], "old"⟩).2 [("b", JsValue.str "x")] rfl (by decide)
  exact ⟨h.2.1 "b" (JsValue.str "x") rfl, (h.2.2.1 "a" rfl).trans rfl⟩

/-! ## Claims about the packing pipeline -/

theorem fitsAll_append (fits : Nat → List Frag → Bool) (cur : List Frag) :
    ∀ (gs : List (List Frag)) (i : Nat), fitsAll fits i gs →
      fits (i + gs.length) cur = true → fitsAll fits i (gs ++ [cur]) := by
  intro gs
  induction gs with
  | nil =>
    intro i _ h2
    exact ⟨by simpa using h2, trivial⟩
  | cons g gs' ih =>
    intro i h1 h2
    refine ⟨h1.1, ih (i + 1) h1.2 ?_⟩
    have hAB : i + 1 + gs'.length = i + (g :: gs').length := by
      simp only [List.length_cons]
      omega
    rw [hAB]
    exact h2

theorem foldl_packStep_none (fits : Nat → List Frag → Bool) (l : List Frag) :
    l.foldl (packStep fits) none = none := by
  induction l with
  | nil => rfl
  | cons f rest ih => simpa [packStep] using ih

theorem packFold_inv (fits : Nat → List Frag → Bool) :
    ∀ (rest : List Frag) (gs0 cur0 gs cur),
      rest.foldl (packStep fits) (some (gs0, cur0)) = some (gs, cur) →
      fitsAll fits 0 gs0 → fits gs0.length cur0 = true →
      fitsAll fits 0 gs ∧ fits gs.length cur = true ∧
        gs.flatten ++ cur = gs0.flatten ++ cur0 ++ rest := by
  intro rest
  induction rest with
  | nil =>
    intro gs0 cur0 gs cur h h1 h2
    simp only [List.foldl_nil, Option.some.injEq, Prod.mk.injEq] at h
    obtain ⟨rfl, rfl⟩ := h
    exact ⟨h1, h2, by simp⟩
  | cons f rest ih =>
    intro gs0 cur0 gs cur h h1 h2
    rw [List.foldl_cons] at h
    by_cases hfit : fits gs0.length (cur0 ++ [f]) = true
    · rw [show packStep fits (some (gs0, cur0)) f = some (gs0, cur0 ++ [f]) from by
        simp [packStep, hfit]] at h
      obtain ⟨ha, hb, hc⟩ := ih gs0 (cur0 ++ [f]) gs cur h h1 hfit
      exact ⟨ha, hb, by rw [hc]; simp⟩
    · by_cases halone : fits (gs0.length + 1) [f] = true
      · rw [show packStep fits (some (gs0, cur0)) f = some (gs0 ++ [cur0], [f]) from by
          simp [packStep, hfit, halone]] at h
        have h1' : fitsAll fits 0 (gs0 ++ [cur0]) :=
          fitsAll_append fits cur0 gs0 0 h1 (by simpa using h2)
        have h2' : fits (gs0 ++ [cur0]).length [f] = true := by simpa using halone
        obtain ⟨ha, hb, hc⟩ := ih (gs0 ++ [cur0]) [f] gs cur h h1' h2'
        exact ⟨ha, hb, by rw [hc]; simp⟩
      · rw [show packStep fits (some (gs0, cur0)) f = none from by
          simp [packStep, hfit, halone]] at h
        rw [foldl_packStep_none] at h
        exact absurd h (by simp)

theorem packGroups_inv (fits : Nat → List Frag → Bool) (frags : List Frag)
    (gs : List (List Frag)) (h : packGroups fits frags = some gs) :
    fitsAll fits 0 gs ∧ gs.flatten = frags := by
  cases frags with
  | nil => exact absurd h (by simp [packGroups])
  | cons f rest =>
    rw [show packGroups fits (f :: rest) =
        (if fits 0 [f] then
          (rest.foldl (packStep fits) (some ([], [f]))).map (fun st => st.1 ++ [st.2])
        else none) from rfl] at h
    by_cases h0 : fits 0 [f] = true
    · rw [if_pos h0] at h
      cases hf : rest.foldl (packStep fits) (some ([], [f])) with
      | none =>
        rw [hf] at h
        exact absurd h (by simp)
      | some st =>
        obtain ⟨gs', cur⟩ := st
        rw [hf] at h
        simp only [Option.map_some', Option.some.injEq] at h
        obtain ⟨ha, hb, hc⟩ := packFold_inv fits rest [] [f] gs' cur hf trivial (by simpa using h0)
        subst h
        refine ⟨fitsAll_append fits cur gs' 0 ha (by simpa using hb), ?_⟩
        simp only [List.flatten_append, List.flatten_cons, List.flatten_nil, List.append_nil]
        simpa using hc
    · rw [if_neg h0] at h
      exact absurd h (by simp)

theorem renderSlots_le (enc : String → String) (cat : String) (maxLen : Nat) :
    ∀ (gs : List (List Frag)) (i : Nat), fitsAll (slotFits enc maxLen cat) i gs →
      ∀ c ∈ renderSlots enc cat i gs, c.length ≤ maxLen := by
  intro gs
  induction gs with
  | nil =>
    intro i _ c hc
    exact absurd hc (by simp [renderSlots])
  | cons g gs' ih =>
    intro i hf c hc
    rw [renderSlots] at hc
    rcases List.mem_cons.mp hc with rfl | hc'
    · exact of_decide_eq_true hf.1
    · exact ih (i + 1) hf.2 c hc'

theorem pack_le (enc : String → String) (maxLen maxSlots : Nat) (cat : String)
    (frags : List Frag) (cmds : List String) (h : pack enc maxLen maxSlots cat frags = some cmds) :
    ∀ c ∈ cmds, c.length ≤ maxLen := by
  unfold pack at h
  by_cases h1 : (slotCommand enc cat none frags).length ≤ maxLen
  · rw [if_pos h1] at h
    simp only [Option.some.injEq] at h
    subst h
    intro c hc
    rcases List.mem_singleton.mp hc with rfl
    exact h1
  · rw [if_neg h1] at h
    cases hpg : packGroups (slotFits enc maxLen cat) frags with
    | none =>
      rw [hpg] at h
      exact absurd h (by simp)
    | some gs =>
      rw [hpg] at h
      simp only [Option.some_bind] at h
      by_cases h2 : gs.length ≤ maxSlots
      · rw [if_pos h2] at h
        simp only [Option.some.injEq] at h
        subst h
        exact renderSlots_le enc cat maxLen gs 0 (packGroups_inv _ frags gs hpg).1
      · rw [if_neg h2] at h
        exact absurd h (by simp)

theorem sectionizeAux_le (maxLen : Nat) :
    ∀ (l : List String) (cur : String), cur.length ≤ maxLen → (∀ c ∈ l, c.length ≤ maxLen) →
      ∀ s ∈ sectionizeAux maxLen cur l, s.length ≤ maxLen := by
  intro l
  induction l with
  | nil =>
    intro cur hcur _ s hs
    rw [sectionizeAux] at hs
    rcases List.mem_singleton.mp hs with rfl
    exact hcur
  | cons c rest ih =>
    intro cur hcur hl s hs
    rw [sectionizeAux] at hs
    by_cases hfit : (cur ++ "\n" ++ c).length ≤ maxLen
    · rw [if_pos hfit] at hs
      exact ih (cur ++ "\n" ++ c) hfit (fun x hx => hl x (List.mem_cons_of_mem c hx)) s hs
    · rw [if_neg hfit] at hs
      rcases List.mem_cons.mp hs with rfl | hs'
      · exact hcur
      · exact ih c (hl c (List.mem_cons_self c rest)) (fun x hx => hl x (List.mem_cons_of_mem c hx))
          s hs'

theorem sectionize_le (maxLen : Nat) (l : List String) (h : ∀ c ∈ l, c.length ≤ maxLen) :
    ∀ s ∈ sectionize maxLen l, s.length ≤ maxLen := by
  cases l with
  | nil =>
    intro s hs
    exact absurd hs (by simp [sectionize])
  | cons c rest =>
    rw [sectionize]
    exact sectionizeAux_le maxLen rest c (h c (List.mem_cons_self c rest))
      (fun x hx => h x (List.mem_cons_of_mem c hx))

/-- C6: every section produced by a successful build is at most
`MAX_COMMAND_LENGTH` characters long.  The literal-command tables are
external data; the theorem assumes their entries respect the limit, which
the specification asserts (packed slot commands are bounded by
construction). -/
theorem verification_c6 : ∀ (enc : String → String) (maxLen maxSlots : Nat)
    (baseCommands baseDefs baseUnits : List String) (mapping : MappingTable)
    (config : ConfigRecord) (bundle : Bundle) (res : LobbySections),
    buildLobbySections enc maxLen maxSlots baseCommands baseDefs baseUnits mapping config
        bundle = some res →
    (∀ c ∈ (mapToTweaks baseCommands baseDefs baseUnits mapping config).1,
      c.length ≤ maxLen) →
    ∀ s ∈ res.sections, s.length ≤ maxLen := by
  intro enc maxLen maxSlots bc bd bu mapping config bundle res hb hcmd
  unfold buildLobbySections at hb
  cases hd : pack enc maxLen maxSlots "tweakdefs"
      (resolveFragments bundle (mapToTweaks bc bd bu mapping config).2.1) with
  | none =>
    rw [hd] at hb
    exact absurd hb (by simp)
  | some dc =>
    rw [hd] at hb
    simp only [Option.some_bind] at hb
    cases hu : pack enc maxLen maxSlots "tweakunits"
        (resolveFragments bundle (mapToTweaks bc bd bu mapping config).2.2) with
    | none =>
      rw [hu] at hb
      exact absurd hb (by simp)
    | some uc =>
      rw [hu] at hb
      simp only [Option.map_some', Option.some.injEq] at hb
      subst hb
      intro s hs
      refine sectionize_le maxLen _ ?_ s hs
      intro c hc
      rcases List.mem_append.mp hc with hc1 | hc2
      · rcases List.mem_append.mp hc1 with hc0 | hcd
        · exact hcmd c hc0
        · exact pack_le enc maxLen maxSlots "tweakdefs" _ dc hd c hcd
      · exact pack_le enc maxLen maxSlots "tweakunits" _ uc hu c hc2

/-- C6 witness: the invariant applied to a concrete successful build. -/
theorem verification_c6_witness :
    ("!hello\n!bset tweakdefs \n!bset tweakunits " : String).length ≤ 60 :=
  verification_c6 (fun s => s) 60 2 ["!hello"] [] [] [] [] []
    ⟨["!hello\n!bset tweakdefs \n!bset tweakunits "]⟩ (by decide) (by decide)
    "!hello\n!bset tweakdefs \n!bset tweakunits " (by decide)

theorem splitOnChar_no_sep (sep : Char) (l : List Char) (h : sep ∉ l) :
    splitOnChar sep l = [l] := by
  induction l with
  | nil => rfl
  | cons c rest ih =>
    simp only [List.mem_cons, not_or] at h
    rw [splitOnChar]
    rw [if_neg (Ne.symm h.1), ih h.2]

theorem splitOnChar_append_sep (sep : Char) (r : List Char) :
    ∀ l : List Char, sep ∉ l → splitOnChar sep (l ++ sep :: r) = l :: splitOnChar sep r := by
  intro l
  induction l with
  | nil =>
    intro _
    rw [List.nil_append, splitOnChar]
    rw [if_pos rfl]
  | cons c cl ih =>
    intro h
    simp only [List.mem_cons, not_or] at h
    rw [List.cons_append, splitOnChar]
    rw [if_neg (Ne.symm h.1), ih h.2]

theorem lineJoinCh_split : ∀ ls : List (List Char), ls ≠ [] → (∀ l ∈ ls, '\n' ∉ l) →
    splitOnChar '\n' (lineJoinCh ls) = ls := by
  intro ls
  induction ls with
  | nil => exact fun h _ => absurd rfl h
  | cons l ls' ih =>
    intro _ h
    cases ls' with
    | nil =>
      rw [show lineJoinCh [l] = l from rfl]
      exact splitOnChar_no_sep '\n' l (h l (List.mem_cons_self l []))
    | cons l2 rest =>
      rw [show lineJoinCh (l :: l2 :: rest) = l ++ '\n' :: lineJoinCh (l2 :: rest) from rfl]
      rw [splitOnChar_append_sep '\n' (lineJoinCh (l2 :: rest)) l (h l (List.mem_cons_self l _))]
      rw [ih (by simp) (fun x hx => h x (List.mem_cons_of_mem l hx))]

theorem lineSplit_lineJoin (ls : List String) (hne : ls ≠ [])
    (h : ∀ l ∈ ls, '\n' ∉ l.data) : lineSplit (lineJoin ls) = ls := by
  unfold lineSplit lineJoin
  rw [show (⟨lineJoinCh (ls.map String.data)⟩ : String).data = lineJoinCh (ls.map String.data)
    from rfl]
  rw [lineJoinCh_split (ls.map String.data) (by simpa using hne) (fun l hl => by
    rcases List.mem_map.mp hl with ⟨s, hs, rfl⟩
    exact h s hs)]
  rw [List.map_map]
  exact List.map_id'' (fun s => rfl) ls

theorem recoverSource_annotation (r : String) : recoverSource ("-- Source: " ++ r) = r := by
  obtain ⟨rd⟩ := r
  rfl

theorem packedGroups_flatten (enc : String → String) (maxLen maxSlots : Nat) (cat : String)
    (frags : List Frag) (gs : List (List Frag))
    (h : packedGroups enc maxLen maxSlots cat frags = some gs) : gs.flatten = frags := by
  unfold packedGroups at h
  by_cases h1 : (slotCommand enc cat none frags).length ≤ maxLen
  · rw [if_pos h1] at h
    simp only [Option.some.injEq] at h
    subst h
    simp
  · rw [if_neg h1] at h
    cases hpg : packGroups (slotFits enc maxLen cat) frags with
    | none =>
      rw [hpg] at h
      exact absurd h (by simp)
    | some gs' =>
      rw [hpg] at h
      simp only [Option.some_bind] at h
      by_cases h2 : gs'.length ≤ maxSlots
      · rw [if_pos h2] at h
        simp only [Option.some.injEq] at h
        subst h
        exact (packGroups_inv _ frags gs' hpg).2
      · rw [if_neg h2] at h
        exact absurd h (by simp)

/-- C7: for every fragment packed into a slot, decoding the slot's payload,
taking the fragment's annotation line, stripping the Lua comment marker and
removing the `Source: ` marker yields exactly the reference token that
produced the fragment. -/
theorem verification_c7 : ∀ (enc dec : String → String), (∀ s, dec (enc s) = s) →
    ∀ (maxLen maxSlots : Nat) (cat : String) (refBodies : List (String × List String))
      (gs : List (List Frag)),
    packedGroups enc maxLen maxSlots cat (refBodies.map (fun p => annotate p.1 p.2)) =
      some gs →
    (∀ p ∈ refBodies, '\n' ∉ p.1.data ∧ ∀ line ∈ p.2, '\n' ∉ line.data) →
    ∀ p ∈ refBodies, ∃ g ∈ gs, annotate p.1 p.2 ∈ g ∧
      ("-- Source: " ++ p.1) ∈ lineSplit (dec (enc (lineJoin g.flatten))) ∧
      recoverSource ("-- Source: " ++ p.1) = p.1 := by
  intro enc dec hdec maxLen maxSlots cat refBodies gs hpack hnl p hp
  have hflat : gs.flatten = refBodies.map (fun p => annotate p.1 p.2) :=
    packedGroups_flatten enc maxLen maxSlots cat _ gs hpack
  have hfr : annotate p.1 p.2 ∈ gs.flatten := by
    rw [hflat]
    exact List.mem_map_of_mem _ hp
  obtain ⟨g, hg, hmem⟩ := List.mem_flatten.mp hfr
  have hlinemem : ("-- Source: " ++ p.1) ∈ g.flatten :=
    List.mem_flatten.mpr ⟨annotate p.1 p.2, hmem, List.mem_cons_self _ _⟩
  have hlines : ∀ l ∈ g.flatten, '\n' ∉ l.data := by
    intro l hl
    obtain ⟨f, hf, hlf⟩ := List.mem_flatten.mp hl
    have hffrags : f ∈ refBodies.map (fun p => annotate p.1 p.2) := by
      rw [← hflat]
      exact List.mem_flatten.mpr ⟨g, hg, hf⟩
    obtain ⟨q, hq, rfl⟩ := List.mem_map.mp hffrags
    rcases List.mem_cons.mp hlf with rfl | hbody
    · rw [show ("-- Source: " ++ q.1).data = "-- Source: ".data ++ q.1.data from rfl]
      intro hin
      rcases List.mem_append.mp hin with hin1 | hin2
      · exact absurd hin1 (by decide)
      · exact absurd hin2 ((hnl q hq).1)
    · exact (hnl q hq).2 l hbody
  refine ⟨g, hg, hmem, ?_, recoverSource_annotation p.1⟩
  rw [hdec]
  rw [lineSplit_lineJoin g.flatten (List.ne_nil_of_mem hlinemem) hlines]
  exact hlinemem

/-- C7 witness: the round-trip applied to one concrete fragment packed with
the identity encoding. -/
theorem verification_c7_witness :
    ∃ g ∈ [[annotate "~lua/a.lua" ["x = 1"]]], annotate "~lua/a.lua" ["x = 1"] ∈ g ∧
      ("-- Source: " ++ "~lua/a.lua") ∈
        lineSplit ((fun s => s) ((fun s => s) (lineJoin g.flatten))) ∧
      recoverSource ("-- Source: " ++ "~lua/a.lua") = "~lua/a.lua" :=
  verification_c7 (fun s => s) (fun s => s) (fun s => rfl) 100 4 "tweakdefs"
    [("~lua/a.lua", ["x = 1"])] [[annotate "~lua/a.lua" ["x = 1"]]] (by decide)
    (by decide) ("~lua/a.lua", ["x = 1"]) (by decide)
